import Mathlib

/-!
Verification of the core bandit-simulation algorithm of `bandit-sim.js`
(Track-and-Stop best-arm identification for Bernoulli bandits).

The per-arm statistics, best-arm scan, allocation rule and arm selection
are embedded over `ℚ` (exact arithmetic, fully executable); the
KL divergence, GLRT statistic and stopping threshold, which use `log`,
are embedded over `ℝ`.
-/

namespace BanditSim

/-- One arm's cumulative statistics (the `Arm` class fields used by the
algorithm: `pulls` and `successes`). -/
structure Arm where
  pulls : ℕ
  successes : ℕ
  deriving DecidableEq, Repr

instance : Inhabited Arm := ⟨⟨0, 0⟩⟩

/-- `get mean()`: `pulls === 0 ? 0.5 : successes / pulls`. -/
def Arm.mean (a : Arm) : ℚ :=
  if a.pulls = 0 then 1/2 else (a.successes : ℚ) / (a.pulls : ℚ)

/-- `totalPulls()`: `arms.reduce((s, a) => s + a.pulls, 0)`. -/
def totalPulls (arms : List Arm) : ℕ :=
  arms.foldl (fun s a => s + a.pulls) 0

/-- `Math.min(...arms.map(a => a.pulls))`, for a non-empty arm list. -/
def minPulls : List Arm → ℕ
  | [] => 0
  | a :: rest => rest.foldl (fun m b => min m b.pulls) a.pulls

/-- The mean estimate of the arm at index `i` (`arms[i].mean`). -/
def meanAt (arms : List Arm) (i : ℕ) : ℚ := (arms.getD i default).mean

/-- `bestArmIdx()`: `arms.reduce((b, a, i) => a.mean > arms[b].mean ? i : b, 0)`. -/
def bestArmIdx (arms : List Arm) : ℕ :=
  (List.range arms.length).foldl
    (fun b i => if meanAt arms b < meanAt arms i then i else b) 0

/-! ### Basic facts about `Arm.mean` -/

theorem mean_nonneg (a : Arm) : 0 ≤ a.mean := by
  unfold Arm.mean
  split
  · norm_num
  · positivity

theorem mean_le_one (a : Arm) (h : a.successes ≤ a.pulls) : a.mean ≤ 1 := by
  unfold Arm.mean
  split
  · norm_num
  · rename_i hp
    rw [div_le_one (by positivity)]
    exact_mod_cast h

/-! ### Facts about `bestArmIdx` -/

private lemma bestFoldAux (arms : List Arm) :
    ∀ n : ℕ, 1 ≤ n →
      ((List.range n).foldl
          (fun b i => if meanAt arms b < meanAt arms i then i else b) 0 < n ∧
        (∀ i < n, meanAt arms i ≤
          meanAt arms ((List.range n).foldl
            (fun b i => if meanAt arms b < meanAt arms i then i else b) 0)) ∧
        (∀ i < n, meanAt arms i =
          meanAt arms ((List.range n).foldl
            (fun b i => if meanAt arms b < meanAt arms i then i else b) 0) →
          (List.range n).foldl
            (fun b i => if meanAt arms b < meanAt arms i then i else b) 0 ≤ i)) := by
  intro n hn
  induction n with
  | zero => omega
  | succ m ih =>
    rcases Nat.eq_or_lt_of_le hn with h1 | h1
    · -- n = 1
      have hm : m = 0 := by omega
      subst hm
      refine ⟨by norm_num [List.range_succ], ?_, ?_⟩
      · intro i hi
        interval_cases i
        simp [List.range_succ]
      · intro i hi _
        simp [List.range_succ]
    · have hm : 1 ≤ m := by omega
      obtain ⟨ihlt, ihmax, ihtie⟩ := ih hm
      set f : ℕ → ℕ → ℕ := fun b i => if meanAt arms b < meanAt arms i then i else b with hf
      set b := (List.range m).foldl f 0 with hb
      have hstep : (List.range (m + 1)).foldl f 0 = f b m := by
        rw [List.range_succ, List.foldl_append]
        simp
      by_cases hc : meanAt arms b < meanAt arms m
      · have hv : (List.range (m + 1)).foldl f 0 = m := by
          rw [hstep]; simp [hf, hc]
        refine ⟨by omega, ?_, ?_⟩
        · intro i hi
          rw [hv]
          rcases Nat.lt_succ_iff_lt_or_eq.mp hi with h | h
          · exact le_trans (ihmax i h) (le_of_lt hc)
          · subst h; exact le_refl _
        · intro i hi he
          rw [hv] at he ⊢
          rcases Nat.lt_succ_iff_lt_or_eq.mp hi with h | h
          · exact absurd (he ▸ ihmax i h) (not_le.mpr (he ▸ hc))
          · omega
      · have hv : (List.range (m + 1)).foldl f 0 = b := by
          rw [hstep]; simp [hf, hc]
        refine ⟨by omega, ?_, ?_⟩
        · intro i hi
          rw [hv]
          rcases Nat.lt_succ_iff_lt_or_eq.mp hi with h | h
          · exact ihmax i h
          · subst h; exact not_lt.mp hc
        · intro i hi he
          rw [hv] at he ⊢
          rcases Nat.lt_succ_iff_lt_or_eq.mp hi with h | h
          · exact ihtie i h he
          · exact (Nat.le_of_lt_succ (by omega))

theorem bestArmIdx_lt (arms : List Arm) (h : arms ≠ []) :
    bestArmIdx arms < arms.length := by
  have h1 : 1 ≤ arms.length := List.length_pos.mpr h
  exact (bestFoldAux arms arms.length h1).1

theorem bestArmIdx_max (arms : List Arm) (h : arms ≠ []) :
    ∀ i < arms.length, meanAt arms i ≤ meanAt arms (bestArmIdx arms) := by
  have h1 : 1 ≤ arms.length := List.length_pos.mpr h
  exact (bestFoldAux arms arms.length h1).2.1

/-- C10: for every non-empty list of arms, `bestArmIdx` is a valid index,
achieves the maximal mean estimate, and on exact ties is the lowest such
index (the first occurrence in a left-to-right scan wins). -/
theorem bestArmIdx_spec (arms : List Arm) (h : arms ≠ []) :
    bestArmIdx arms < arms.length ∧
    (∀ i < arms.length, meanAt arms i ≤ meanAt arms (bestArmIdx arms)) ∧
    (∀ i < arms.length, meanAt arms i = meanAt arms (bestArmIdx arms) →
      bestArmIdx arms ≤ i) := by
  have h1 : 1 ≤ arms.length := List.length_pos.mpr h
  exact bestFoldAux arms arms.length h1

/-- C10 witness: on the concrete list `[⟨4,1⟩, ⟨4,3⟩, ⟨4,3⟩]` the best index
is valid, maximal, and the tie at index 2 does not displace index 1. -/
theorem bestArmIdx_spec_witness :
    bestArmIdx [⟨4,1⟩, ⟨4,3⟩, ⟨4,3⟩] < 3 ∧
      (meanAt [⟨4,1⟩, ⟨4,3⟩, ⟨4,3⟩] 2 =
        meanAt [⟨4,1⟩, ⟨4,3⟩, ⟨4,3⟩] (bestArmIdx [⟨4,1⟩, ⟨4,3⟩, ⟨4,3⟩]) →
      bestArmIdx [⟨4,1⟩, ⟨4,3⟩, ⟨4,3⟩] ≤ 2) :=
  ⟨(bestArmIdx_spec [⟨4,1⟩, ⟨4,3⟩, ⟨4,3⟩] (by simp)).1,
   (bestArmIdx_spec [⟨4,1⟩, ⟨4,3⟩, ⟨4,3⟩] (by simp)).2.2 2 (by norm_num)⟩

/-! ### C9: the mean estimate -/

/-- C9 counterexample: an arm with 2 pulls and 1 success has mean estimate
exactly 0.5 while its pull count is nonzero, so "`meanEstimate` equals 0.5
exactly when `pulls = 0`" fails in the only-if direction. -/
theorem mean_half_pulls_pos_cex :
    (Arm.mk 2 1).successes ≤ (Arm.mk 2 1).pulls ∧
      (Arm.mk 2 1).mean = 1/2 ∧ (Arm.mk 2 1).pulls ≠ 0 := by
  refine ⟨by norm_num, ?_, by norm_num⟩
  norm_num [Arm.mean]

/-- C9 (amended): for every `ArmState` with `successes ≤ pulls`, the mean
estimate lies in `[0,1]`, equals `successes / pulls` when `pulls > 0`, and
equals 0.5 when `pulls = 0` (but not only then). -/
theorem mean_spec (a : Arm) (h : a.successes ≤ a.pulls) :
    (0 ≤ a.mean ∧ a.mean ≤ 1) ∧
      (0 < a.pulls → a.mean = (a.successes : ℚ) / (a.pulls : ℚ)) ∧
      (a.pulls = 0 → a.mean = 1/2) := by
  refine ⟨⟨mean_nonneg a, mean_le_one a h⟩, ?_, ?_⟩
  · intro hp
    unfold Arm.mean
    rw [if_neg (by omega)]
  · intro hp
    unfold Arm.mean
    rw [if_pos hp]

/-- C9 witness: the amended statement evaluated at the arm ⟨3, 2⟩. -/
theorem mean_spec_witness :
    (0 ≤ (Arm.mk 3 2).mean ∧ (Arm.mk 3 2).mean ≤ 1) ∧
      (0 < (Arm.mk 3 2).pulls →
        (Arm.mk 3 2).mean = ((Arm.mk 3 2).successes : ℚ) / ((Arm.mk 3 2).pulls : ℚ)) ∧
      ((Arm.mk 3 2).pulls = 0 → (Arm.mk 3 2).mean = 1/2) :=
  mean_spec (Arm.mk 3 2) (by norm_num)

/-! ### Allocation (Track-and-Stop weighting, `computeAdaptiveAlloc`) -/

/-- The weight `1 / (gap * gap)` given to a non-best arm, with
`gap = Math.max(bestMean - arm.mean, 0.005)`. -/
def challengerWeight (bestMean m : ℚ) : ℚ :=
  1 / (max (bestMean - m) (1/200) * max (bestMean - m) (1/200))

/-- `sumOthers` of `computeAdaptiveAlloc`: the sum of the non-best weights
(`w.reduce((s, v, i) => i === best ? s : s + v, 0)`). -/
def sumOthers (arms : List Arm) : ℚ :=
  ((List.range arms.length).map
    (fun i => if i = bestArmIdx arms then 0
              else challengerWeight (meanAt arms (bestArmIdx arms)) (meanAt arms i))).sum

/-- The unnormalized weight vector `w` of `computeAdaptiveAlloc`:
`1/gap²` for each non-best arm and `max(sumOthers, 0.01)` for the best arm. -/
def adaptiveWeights (arms : List Arm) : List ℚ :=
  (List.range arms.length).map
    (fun i => if i = bestArmIdx arms then max (sumOthers arms) (1/100)
              else challengerWeight (meanAt arms (bestArmIdx arms)) (meanAt arms i))

/-- `computeAdaptiveAlloc()`: uniform during warm-up (`minP < 6`), otherwise
the normalized adaptive weight vector. -/
def computeAdaptiveAlloc (arms : List Arm) : List ℚ :=
  if minPulls arms < 6 then arms.map (fun _ => 1 / (arms.length : ℚ))
  else (adaptiveWeights arms).map (fun v => v / (adaptiveWeights arms).sum)

/-- The two simulation modes of `simMode`. -/
inductive SimMode
  | adaptive
  | uniform
  deriving DecidableEq, Repr

/-- The allocation used by `simStep`: `simMode === 'adaptive'
? computeAdaptiveAlloc() : arms.map(() => 1 / arms.length)`. -/
def stepAlloc (mode : SimMode) (arms : List Arm) : List ℚ :=
  match mode with
  | .adaptive => computeAdaptiveAlloc arms
  | .uniform => arms.map (fun _ => 1 / (arms.length : ℚ))

lemma challengerWeight_pos (bestMean m : ℚ) : 0 < challengerWeight bestMean m := by
  unfold challengerWeight
  have hg : (0:ℚ) < max (bestMean - m) (1/200) :=
    lt_of_lt_of_le (by norm_num) (le_max_right _ _)
  positivity

lemma sum_map_div (l : List ℚ) (c : ℚ) :
    (l.map (fun v => v / c)).sum = l.sum / c := by
  induction l with
  | nil => simp
  | cons a t ih => simp [ih, add_div]

lemma sum_map_ite (g : ℕ → ℚ) (c : ℚ) : ∀ n b : ℕ, b < n →
    ((List.range n).map (fun i => if i = b then c else g i)).sum
      = c + ((List.range n).map (fun i => if i = b then 0 else g i)).sum := by
  intro n
  induction n with
  | zero => omega
  | succ m ih =>
    intro b hb
    rw [List.range_succ, List.map_append, List.map_append,
      List.sum_append, List.sum_append]
    by_cases hbm : b = m
    · subst hbm
      have h1 : ((List.range b).map (fun i => if i = b then c else g i))
          = (List.range b).map (fun i => if i = b then 0 else g i) := by
        apply List.map_congr_left
        intro a ha
        have hab : a < b := List.mem_range.mp ha
        rw [if_neg (by omega), if_neg (by omega)]
      rw [h1]
      simp
      ring
    · have hbm' : b < m := by omega
      have hmb : m ≠ b := fun hh => hbm hh.symm
      rw [ih b hbm']
      simp only [List.map_cons, List.map_nil, List.sum_cons, List.sum_nil,
        if_neg hmb]
      ring

lemma uniform_valid (arms : List Arm) (h : arms ≠ []) :
    (arms.map (fun _ => 1 / (arms.length : ℚ))).length = arms.length ∧
    (∀ x ∈ arms.map (fun _ => 1 / (arms.length : ℚ)), 0 < x) ∧
    (arms.map (fun _ => 1 / (arms.length : ℚ))).sum = 1 := by
  have hlen : (0:ℚ) < (arms.length : ℚ) := by
    exact_mod_cast List.length_pos.mpr h
  refine ⟨by simp, ?_, ?_⟩
  · intro x hx
    simp only [List.mem_map] at hx
    obtain ⟨a, _, rfl⟩ := hx
    positivity
  · rw [List.map_const', List.sum_replicate, nsmul_eq_mul]
    field_simp

lemma adaptiveWeights_length (arms : List Arm) :
    (adaptiveWeights arms).length = arms.length := by
  simp [adaptiveWeights]

lemma adaptiveWeights_pos (arms : List Arm) :
    ∀ x ∈ adaptiveWeights arms, 0 < x := by
  intro x hx
  simp only [adaptiveWeights, List.mem_map, List.mem_range] at hx
  obtain ⟨i, _, rfl⟩ := hx
  by_cases hib : i = bestArmIdx arms
  · rw [if_pos hib]
    exact lt_of_lt_of_le (by norm_num) (le_max_right _ _)
  · rw [if_neg hib]
    exact challengerWeight_pos _ _

lemma adaptiveWeights_ne_nil (arms : List Arm) (h : arms ≠ []) :
    adaptiveWeights arms ≠ [] := by
  intro hcon
  have := adaptiveWeights_length arms
  rw [hcon] at this
  exact h (List.length_eq_zero.mp this.symm)

lemma adaptiveWeights_sum_pos (arms : List Arm) (h : arms ≠ []) :
    0 < (adaptiveWeights arms).sum :=
  List.sum_pos _ (adaptiveWeights_pos arms) (adaptiveWeights_ne_nil arms h)

lemma adaptive_valid (arms : List Arm) (h : arms ≠ []) :
    (computeAdaptiveAlloc arms).length = arms.length ∧
    (∀ x ∈ computeAdaptiveAlloc arms, 0 < x) ∧
    (computeAdaptiveAlloc arms).sum = 1 := by
  unfold computeAdaptiveAlloc
  by_cases hw : minPulls arms < 6
  · rw [if_pos hw]
    exact uniform_valid arms h
  · rw [if_neg hw]
    have hpos := adaptiveWeights_pos arms
    have hsum := adaptiveWeights_sum_pos arms h
    refine ⟨by simp [adaptiveWeights_length], ?_, ?_⟩
    · intro x hx
      simp only [List.mem_map] at hx
      obtain ⟨v, hv, rfl⟩ := hx
      exact div_pos (hpos v hv) hsum
    · rw [sum_map_div]
      exact div_self (ne_of_gt hsum)

lemma range_one_eq : List.range 1 = [0] := rfl

lemma bestArmIdx_single (a : Arm) : bestArmIdx [a] = 0 := by
  simp [bestArmIdx, range_one_eq]

lemma adaptive_single (a : Arm) : computeAdaptiveAlloc [a] = [1] := by
  by_cases hw : minPulls [a] < 6
  · rw [computeAdaptiveAlloc, if_pos hw]
    norm_num
  · rw [computeAdaptiveAlloc, if_neg hw]
    have hs : sumOthers [a] = 0 := by
      simp [sumOthers, range_one_eq, bestArmIdx_single]
    have hwts : adaptiveWeights [a] = [1/100] := by
      simp [adaptiveWeights, range_one_eq, bestArmIdx_single, hs]
    rw [hwts]
    norm_num

/-- C2: in both modes, for every non-empty list of arms with valid counts,
the computed allocation has length `K`, strictly positive entries, and sums
to exactly 1; with `K = 1` the allocation is `[1]`. -/
theorem stepAlloc_valid (mode : SimMode) (arms : List Arm) (h : arms ≠ [])
    (hinv : ∀ a ∈ arms, a.successes ≤ a.pulls) :
    (stepAlloc mode arms).length = arms.length ∧
    (∀ x ∈ stepAlloc mode arms, 0 < x) ∧
    (stepAlloc mode arms).sum = 1 ∧
    (arms.length = 1 → stepAlloc mode arms = [1]) := by
  cases mode with
  | adaptive =>
    obtain ⟨h1, h2, h3⟩ := adaptive_valid arms h
    refine ⟨h1, h2, h3, ?_⟩
    intro hK
    obtain ⟨a, rfl⟩ := List.length_eq_one.mp hK
    exact adaptive_single a
  | uniform =>
    obtain ⟨h1, h2, h3⟩ := uniform_valid arms h
    refine ⟨h1, h2, h3, ?_⟩
    intro hK
    obtain ⟨a, rfl⟩ := List.length_eq_one.mp hK
    show [a].map (fun _ => 1 / (([a] : List Arm).length : ℚ)) = [1]
    norm_num

/-- C2 witness: the adaptive allocation for the single fresh arm `⟨0,0⟩`. -/
theorem stepAlloc_valid_witness :
    (stepAlloc SimMode.adaptive [Arm.mk 0 0]).length = 1 ∧
    (∀ x ∈ stepAlloc SimMode.adaptive [Arm.mk 0 0], 0 < x) ∧
    (stepAlloc SimMode.adaptive [Arm.mk 0 0]).sum = 1 ∧
    (([Arm.mk 0 0] : List Arm).length = 1 →
      stepAlloc SimMode.adaptive [Arm.mk 0 0] = [1]) :=
  stepAlloc_valid SimMode.adaptive [Arm.mk 0 0] (by simp) (by simp)

/-! ### C8: share of the best arm in the adaptive allocation -/

lemma meanAt_nonneg (arms : List Arm) (i : ℕ) : 0 ≤ meanAt arms i :=
  mean_nonneg _

lemma meanAt_le_one (arms : List Arm)
    (hinv : ∀ a ∈ arms, a.successes ≤ a.pulls) (i : ℕ) (hi : i < arms.length) :
    meanAt arms i ≤ 1 := by
  unfold meanAt
  apply mean_le_one
  apply hinv
  rw [List.getD_eq_getElem arms default hi]
  exact List.getElem_mem hi

lemma challengerWeight_ge_one (bestMean m : ℚ) (h0 : 0 ≤ m) (h1 : bestMean ≤ 1) :
    1 ≤ challengerWeight bestMean m := by
  unfold challengerWeight
  have hgpos : (0:ℚ) < max (bestMean - m) (1/200) :=
    lt_of_lt_of_le (by norm_num) (le_max_right _ _)
  have hgle : max (bestMean - m) (1/200) ≤ 1 := max_le (by linarith) (by norm_num)
  rw [le_div_iff₀ (by positivity)]
  nlinarith

lemma adaptiveWeights_sum (arms : List Arm) (h : arms ≠ []) :
    (adaptiveWeights arms).sum = max (sumOthers arms) (1/100) + sumOthers arms := by
  rw [adaptiveWeights, sum_map_ite _ _ arms.length (bestArmIdx arms)
    (bestArmIdx_lt arms h)]
  rfl

/-- C8: with at least two arms, valid counts and minimum pull count at least
6, every challenger weight `1/gap²` is at least 1, the `0.01` floor on the
best arm's weight is inactive, and the normalized adaptive allocation gives
the best arm a share of exactly one half. -/
theorem adaptiveAlloc_best_half (arms : List Arm) (hK : 2 ≤ arms.length)
    (hinv : ∀ a ∈ arms, a.successes ≤ a.pulls) (hmin : 6 ≤ minPulls arms) :
    (∀ i < arms.length, i ≠ bestArmIdx arms →
      1 ≤ challengerWeight (meanAt arms (bestArmIdx arms)) (meanAt arms i)) ∧
    max (sumOthers arms) (1/100) = sumOthers arms ∧
    (computeAdaptiveAlloc arms).getD (bestArmIdx arms) 0 = 1/2 := by
  have hne : arms ≠ [] := by
    intro hc; rw [hc] at hK; simp at hK
  have hblt : bestArmIdx arms < arms.length := bestArmIdx_lt arms hne
  have hbm1 : meanAt arms (bestArmIdx arms) ≤ 1 :=
    meanAt_le_one arms hinv _ hblt
  have hcw : ∀ i < arms.length, i ≠ bestArmIdx arms →
      1 ≤ challengerWeight (meanAt arms (bestArmIdx arms)) (meanAt arms i) := by
    intro i _ _
    exact challengerWeight_ge_one _ _ (meanAt_nonneg arms i) hbm1
  -- a concrete challenger index
  have hj : ∃ j, j < arms.length ∧ j ≠ bestArmIdx arms := by
    by_cases hb0 : bestArmIdx arms = 0
    · exact ⟨1, by omega, by omega⟩
    · exact ⟨0, by omega, fun hh => hb0 hh.symm⟩
  obtain ⟨j, hjlt, hjne⟩ := hj
  have hone : 1 ≤ sumOthers arms := by
    have hmem : (if j = bestArmIdx arms then 0
        else challengerWeight (meanAt arms (bestArmIdx arms)) (meanAt arms j)) ∈
        (List.range arms.length).map
          (fun i => if i = bestArmIdx arms then 0
            else challengerWeight (meanAt arms (bestArmIdx arms)) (meanAt arms i)) :=
      List.mem_map_of_mem _ (List.mem_range.mpr hjlt)
    have hnn : ∀ x ∈ (List.range arms.length).map
        (fun i => if i = bestArmIdx arms then 0
          else challengerWeight (meanAt arms (bestArmIdx arms)) (meanAt arms i)),
        0 ≤ x := by
      intro x hx
      simp only [List.mem_map, List.mem_range] at hx
      obtain ⟨i, _, rfl⟩ := hx
      split
      · exact le_refl 0
      · exact le_of_lt (challengerWeight_pos _ _)
    have hle := List.single_le_sum hnn _ hmem
    rw [if_neg hjne] at hle
    exact le_trans (hcw j hjlt hjne) hle
  have hmax : max (sumOthers arms) (1/100) = sumOthers arms :=
    max_eq_left (le_trans (by norm_num) hone)
  refine ⟨hcw, hmax, ?_⟩
  have hnotwarm : ¬ minPulls arms < 6 := by omega
  rw [computeAdaptiveAlloc, if_neg hnotwarm]
  have hlen : bestArmIdx arms <
      ((adaptiveWeights arms).map (fun v => v / (adaptiveWeights arms).sum)).length := by
    rw [List.length_map, adaptiveWeights_length]
    exact hblt
  rw [List.getD_eq_getElem _ 0 hlen, List.getElem_map]
  have hwlen : bestArmIdx arms < (adaptiveWeights arms).length := by
    rw [adaptiveWeights_length]; exact hblt
  have hwbest : (adaptiveWeights arms)[bestArmIdx arms] = sumOthers arms := by
    simp only [adaptiveWeights, List.getElem_map, List.getElem_range,
      if_pos rfl]
    exact hmax
  rw [hwbest, adaptiveWeights_sum arms hne, hmax]
  have hs0 : (0:ℚ) < sumOthers arms := lt_of_lt_of_le one_pos hone
  rw [div_eq_iff (by linarith)]
  ring

/-- C8 witness: two arms with 6 pulls each; the best arm's normalized share
is exactly one half. -/
theorem adaptiveAlloc_best_half_witness :
    (∀ i < ([Arm.mk 6 3, Arm.mk 6 2] : List Arm).length,
      i ≠ bestArmIdx [Arm.mk 6 3, Arm.mk 6 2] →
      1 ≤ challengerWeight
        (meanAt [Arm.mk 6 3, Arm.mk 6 2] (bestArmIdx [Arm.mk 6 3, Arm.mk 6 2]))
        (meanAt [Arm.mk 6 3, Arm.mk 6 2] i)) ∧
    max (sumOthers [Arm.mk 6 3, Arm.mk 6 2]) (1/100)
      = sumOthers [Arm.mk 6 3, Arm.mk 6 2] ∧
    (computeAdaptiveAlloc [Arm.mk 6 3, Arm.mk 6 2]).getD
      (bestArmIdx [Arm.mk 6 3, Arm.mk 6 2]) 0 = 1/2 :=
  adaptiveAlloc_best_half [Arm.mk 6 3, Arm.mk 6 2] (by norm_num)
    (by decide) (by decide)

/-! ### C7: `selectArm` — cumulative-probability draw -/

/-- The loop of `selectArm`: walk the allocation keeping the running
cumulative sum `cum` and the current index `i`; return the first index at
which `r <= cum`. `none` models falling off the end of the loop. -/
def selGo (r : ℚ) : List ℚ → ℚ → ℕ → Option ℕ
  | [], _, _ => none
  | a :: rest, cum, i =>
    if r ≤ cum + a then some i else selGo r rest (cum + a) (i + 1)

/-- `selectArm(alloc)` at draw `r`: the loop's result, with the
`alloc.length - 1` fallback against float rounding. -/
def selectArm (alloc : List ℚ) (r : ℚ) : ℕ :=
  (selGo r alloc 0 0).getD (alloc.length - 1)

/-- The spec's description of the draw, stated independently of the loop:
the first index whose cumulative weight (sum of the first `i + 1` entries)
is at or above the draw. -/
def firstHit (alloc : List ℚ) (r : ℚ) : Option ℕ :=
  (List.range alloc.length).find? (fun i => decide (r ≤ (alloc.take (i + 1)).sum))

lemma selGo_eq (r : ℚ) : ∀ (l : List ℚ) (cum : ℚ) (i : ℕ),
    selGo r l cum i
      = Option.map (fun j => i + j)
          ((List.range l.length).find?
            (fun j => decide (r ≤ cum + (l.take (j + 1)).sum))) := by
  intro l
  induction l with
  | nil => intro cum i; rfl
  | cons a t ih =>
    intro cum i
    rw [selGo]
    by_cases hc : r ≤ cum + a
    · rw [if_pos hc, List.length_cons, List.range_succ_eq_map,
        List.find?_cons_of_pos]
      · simp
      · simpa using hc
    · rw [if_neg hc, ih (cum + a) (i + 1), List.length_cons,
        List.range_succ_eq_map, List.find?_cons_of_neg, List.find?_map,
        Option.map_map]
      · have hpred : ((fun j => decide (r ≤ cum + ((a :: t).take (j + 1)).sum))
            ∘ Nat.succ)
            = fun j => decide (r ≤ cum + a + (t.take (j + 1)).sum) := by
          funext j
          simp only [Function.comp_apply, List.take_succ_cons, List.sum_cons]
          apply decide_eq_decide.mpr
          rw [add_assoc]
        have hfn : ((fun j => i + j) ∘ Nat.succ)
            = fun j => i + 1 + j := by
          funext j
          simp only [Function.comp_apply]
          omega
        rw [hpred, hfn]
      · simpa using hc

/-- C7: for every non-empty allocation and draw `r ∈ [0,1)`, `selectArm`
returns the first index whose cumulative weight is at or above `r`
(falling back to the last index when no cumulative sum reaches `r`), and
the returned index is always within bounds. -/
theorem selectArm_spec (alloc : List ℚ) (r : ℚ) (h : alloc ≠ [])
    (h0 : 0 ≤ r) (h1 : r < 1) :
    selectArm alloc r = (firstHit alloc r).getD (alloc.length - 1) ∧
    selectArm alloc r < alloc.length := by
  have hsel : selGo r alloc 0 0 = firstHit alloc r := by
    rw [selGo_eq r alloc 0 0, firstHit]
    simp only [zero_add]
    rw [Option.map_id']
  have heq : selectArm alloc r = (firstHit alloc r).getD (alloc.length - 1) := by
    rw [selectArm, hsel]
  refine ⟨heq, ?_⟩
  rw [heq]
  have hlp : 0 < alloc.length := List.length_pos.mpr h
  cases hfind : firstHit alloc r with
  | none => simpa using Nat.sub_lt hlp one_pos
  | some j =>
    have hj : j ∈ List.range alloc.length :=
      List.mem_of_find?_eq_some hfind
    simpa using List.mem_range.mp hj

/-- C7 witness: the draw 3/4 on the allocation `[1/2, 1/2]`. -/
theorem selectArm_spec_witness :
    selectArm [1/2, 1/2] (3/4)
        = (firstHit [1/2, 1/2] (3/4)).getD (([1/2, 1/2] : List ℚ).length - 1) ∧
      selectArm [1/2, 1/2] (3/4) < ([1/2, 1/2] : List ℚ).length :=
  selectArm_spec [1/2, 1/2] (3/4) (by simp) (by norm_num) (by norm_num)

/-! ### C5: Bernoulli KL divergence (`klBern`) -/

/-- The clamp `Math.max(1e-9, Math.min(1 - 1e-9, x))` applied to both
arguments of `klBern`. -/
noncomputable def clampUnit (x : ℝ) : ℝ :=
  max (1/1000000000) (min (1 - 1/1000000000) x)

/-- `klBern(p, q)`: the Bernoulli KL divergence of the clamped inputs. -/
noncomputable def klBern (p q : ℝ) : ℝ :=
  clampUnit p * Real.log (clampUnit p / clampUnit q)
    + (1 - clampUnit p) * Real.log ((1 - clampUnit p) / (1 - clampUnit q))

lemma clampUnit_pos (x : ℝ) : 0 < clampUnit x :=
  lt_of_lt_of_le (by norm_num) (le_max_left _ _)

lemma clampUnit_lt_one (x : ℝ) : clampUnit x < 1 := by
  unfold clampUnit
  apply max_lt
  · norm_num
  · exact lt_of_le_of_lt (min_le_left _ _) (by norm_num)

lemma mul_log_div_ge (x y : ℝ) (hx : 0 < x) (hy : 0 < y) :
    x - y ≤ x * Real.log (x / y) := by
  have hlog : Real.log (y / x) ≤ y / x - 1 :=
    Real.log_le_sub_one_of_pos (div_pos hy hx)
  have hneg : Real.log (x / y) = - Real.log (y / x) := by
    rw [← Real.log_inv, inv_div]
  have h2 : 1 - y / x ≤ Real.log (x / y) := by rw [hneg]; linarith
  have h3 : x * (1 - y / x) ≤ x * Real.log (x / y) :=
    mul_le_mul_of_nonneg_left h2 (le_of_lt hx)
  have h4 : x * (1 - y / x) = x - y := by field_simp
  linarith

/-- C5: `klBern(p, p) = 0` for every `p` in the open unit interval, and
`klBern` is non-negative on all real inputs (clamping happens inside). -/
theorem klBern_spec :
    (∀ p : ℝ, 0 < p → p < 1 → klBern p p = 0) ∧
    (∀ p q : ℝ, 0 ≤ klBern p q) := by
  constructor
  · intro p _ _
    unfold klBern
    rw [div_self (ne_of_gt (clampUnit_pos p)),
      div_self (sub_ne_zero.mpr (clampUnit_lt_one p).ne'),
      Real.log_one, mul_zero, mul_zero, add_zero]
  · intro p q
    unfold klBern
    have ha0 := clampUnit_pos p
    have ha1 := clampUnit_lt_one p
    have hb0 := clampUnit_pos q
    have hb1 := clampUnit_lt_one q
    have h1 := mul_log_div_ge (clampUnit p) (clampUnit q) ha0 hb0
    have h2 := mul_log_div_ge (1 - clampUnit p) (1 - clampUnit q)
      (by linarith) (by linarith)
    linarith

/-- C5 witness: `klBern` evaluated on `p = 1/2` and on the pair `(1/4, 3/4)`. -/
theorem klBern_spec_witness :
    klBern (1/2) (1/2) = 0 ∧ 0 ≤ klBern (1/4) (3/4) :=
  ⟨klBern_spec.1 (1/2) (by norm_num) (by norm_num), klBern_spec.2 (1/4) (3/4)⟩

/-! ### C6: the anytime-valid stopping threshold -/

/-- The fixed error tolerance `DELTA = 0.05` of the simulator. -/
noncomputable def DELTA : ℝ := 5/100

/-- `stoppingThreshold(t)` with the error tolerance `δ` made explicit (the
spec treats `δ` as a configured input): `ln((ln(t + e) + 1) / δ)`. -/
noncomputable def stoppingThresholdGen (δ t : ℝ) : ℝ :=
  Real.log ((Real.log (t + Real.exp 1) + 1) / δ)

/-- `stoppingThreshold(t)` as in the source, at the configured `DELTA`. -/
noncomputable def stoppingThreshold (t : ℝ) : ℝ := stoppingThresholdGen DELTA t

/-- C6: at every fixed `t ≥ 0`, increasing the error tolerance from `δ₁` to
`δ₂` never increases the stopping threshold. -/
theorem stoppingThreshold_delta_antitone (t δ₁ δ₂ : ℝ) (ht : 0 ≤ t)
    (h1 : 0 < δ₁) (h12 : δ₁ ≤ δ₂) (h2 : δ₂ ≤ 1) :
    stoppingThresholdGen δ₂ t ≤ stoppingThresholdGen δ₁ t := by
  unfold stoppingThresholdGen
  have hexp : (0:ℝ) < Real.exp 1 := Real.exp_pos 1
  have hpos : 0 < t + Real.exp 1 := by linarith
  have hlog1 : 1 ≤ Real.log (t + Real.exp 1) := by
    calc (1:ℝ) = Real.log (Real.exp 1) := (Real.log_exp 1).symm
    _ ≤ Real.log (t + Real.exp 1) := by
        rw [Real.log_le_log_iff hexp hpos]
        linarith
  have hN : (0:ℝ) < Real.log (t + Real.exp 1) + 1 := by linarith
  have hd2 : (0:ℝ) < δ₂ := lt_of_lt_of_le h1 h12
  have hdiv : (Real.log (t + Real.exp 1) + 1) / δ₂
      ≤ (Real.log (t + Real.exp 1) + 1) / δ₁ :=
    div_le_div_of_nonneg_left (le_of_lt hN) h1 h12
  rw [Real.log_le_log_iff (div_pos hN hd2) (div_pos hN h1)]
  exact hdiv

/-- C6 witness: at `t = 0`, the threshold at `δ = 0.10` is at most the
threshold at `δ = 0.01`. -/
theorem stoppingThreshold_delta_antitone_witness :
    stoppingThresholdGen (1/10) 0 ≤ stoppingThresholdGen (1/100) 0 :=
  stoppingThreshold_delta_antitone 0 (1/100) (1/10) (by norm_num)
    (by norm_num) (by norm_num) (by norm_num)

/-! ### C3: the GLRT statistic -/

/-- `glrtStat(arm_i, arm_j)`: 0 with insufficient data or when the first arm
is not strictly ahead, otherwise the pull-weighted sum of the two KL terms. -/
noncomputable def glrtStat (ai aj : Arm) : ℝ :=
  if ai.pulls < 1 ∨ aj.pulls < 1 then 0
  else if ai.mean ≤ aj.mean then 0
  else (ai.pulls : ℝ) * klBern (ai.mean : ℝ) (aj.mean : ℝ)
    + (aj.pulls : ℝ) * klBern (aj.mean : ℝ) (ai.mean : ℝ)

/-- C3: case analysis of `glrtStat` — 0 when either arm has fewer than one
pull, 0 when the best arm's mean does not exceed the challenger's, and
otherwise the pull-weighted symmetric KL sum. -/
theorem glrtStat_cases (a b : Arm) (ha : a.successes ≤ a.pulls)
    (hb : b.successes ≤ b.pulls) :
    (a.pulls < 1 ∨ b.pulls < 1 → glrtStat a b = 0) ∧
    (a.mean ≤ b.mean → glrtStat a b = 0) ∧
    (1 ≤ a.pulls → 1 ≤ b.pulls → b.mean < a.mean →
      glrtStat a b = (a.pulls : ℝ) * klBern (a.mean : ℝ) (b.mean : ℝ)
        + (b.pulls : ℝ) * klBern (b.mean : ℝ) (a.mean : ℝ)) := by
  refine ⟨?_, ?_, ?_⟩
  · intro h
    rw [glrtStat, if_pos h]
  · intro h
    rw [glrtStat]
    by_cases hp : a.pulls < 1 ∨ b.pulls < 1
    · rw [if_pos hp]
    · rw [if_neg hp, if_pos h]
  · intro hpa hpb hm
    rw [glrtStat, if_neg (by omega), if_neg (not_le.mpr hm)]

/-- C3 witness: the zero case on a fresh pair and the formula case on the
pair `⟨2,2⟩`, `⟨2,0⟩`. -/
theorem glrtStat_cases_witness :
    glrtStat (Arm.mk 0 0) (Arm.mk 1 1) = 0 ∧
    glrtStat (Arm.mk 2 2) (Arm.mk 2 0)
      = ((Arm.mk 2 2).pulls : ℝ) * klBern (((Arm.mk 2 2).mean : ℚ) : ℝ) (((Arm.mk 2 0).mean : ℚ) : ℝ)
        + ((Arm.mk 2 0).pulls : ℝ) * klBern (((Arm.mk 2 0).mean : ℚ) : ℝ) (((Arm.mk 2 2).mean : ℚ) : ℝ) :=
  ⟨(glrtStat_cases (Arm.mk 0 0) (Arm.mk 1 1) (by norm_num) (by norm_num)).1
      (by norm_num),
   (glrtStat_cases (Arm.mk 2 2) (Arm.mk 2 0) (by norm_num) (by norm_num)).2.2
      (by norm_num) (by norm_num) (by norm_num [Arm.mean])⟩

/-! ### C1: the stopping rule `shouldStop` -/

open Classical in
/-- `shouldStop()`: false below the 12-pull floor; otherwise false exactly
when some challenger's GLRT statistic against the best arm is below the
threshold at `t = totalPulls()`. -/
noncomputable def shouldStop (arms : List Arm) : Bool :=
  if minPulls arms < 12 then false
  else if ∃ i ∈ List.range arms.length, i ≠ bestArmIdx arms ∧
      glrtStat (arms.getD (bestArmIdx arms) default) (arms.getD i default)
        < stoppingThreshold ((totalPulls arms : ℕ) : ℝ)
    then false
  else true

/-- C1: for every non-empty arm list with valid counts, `shouldStop` is
false whenever the minimum pull count is below 12; with the floor met it is
true if and only if every challenger's GLRT statistic against the best arm
is at or above the threshold at `t = totalPulls`. -/
theorem shouldStop_spec (arms : List Arm) (hK : arms ≠ [])
    (hinv : ∀ a ∈ arms, a.successes ≤ a.pulls) :
    (minPulls arms < 12 → shouldStop arms = false) ∧
    (12 ≤ minPulls arms →
      (shouldStop arms = true ↔
        ∀ i < arms.length, i ≠ bestArmIdx arms →
          stoppingThreshold ((totalPulls arms : ℕ) : ℝ)
            ≤ glrtStat (arms.getD (bestArmIdx arms) default)
                (arms.getD i default))) := by
  constructor
  · intro h
    rw [shouldStop, if_pos h]
  · intro h
    rw [shouldStop, if_neg (by omega)]
    by_cases hex : ∃ i ∈ List.range arms.length, i ≠ bestArmIdx arms ∧
        glrtStat (arms.getD (bestArmIdx arms) default) (arms.getD i default)
          < stoppingThreshold ((totalPulls arms : ℕ) : ℝ)
    · rw [if_pos hex]
      constructor
      · intro hcon
        exact absurd hcon (by simp)
      · intro hall
        obtain ⟨i, hi, hne, hlt⟩ := hex
        exact absurd hlt (not_lt.mpr (hall i (List.mem_range.mp hi) hne))
    · rw [if_neg hex]
      constructor
      · intro _ i hi hne
        by_contra hlt
        exact hex ⟨i, List.mem_range.mpr hi, hne, not_le.mp hlt⟩
      · intro _
        rfl

/-- C1 witness: a single fresh arm is below the 12-pull floor, so
`shouldStop` is false. -/
theorem shouldStop_spec_witness : shouldStop [Arm.mk 0 0] = false :=
  (shouldStop_spec [Arm.mk 0 0] (by simp) (by simp)).1 (by decide)

/-! ### C4: the simulation driver -/

/-- `MAX_STEPS`: the hard cap on total inferences. -/
def MAX_STEPS : ℕ := 5000

/-- `CHART_SAMPLE`: allocation is recorded every `CHART_SAMPLE` pulls. -/
def CHART_SAMPLE : ℕ := 15

/-- `Arm.pull()` with the Bernoulli outcome supplied by the environment:
increment `pulls`, and `successes` on a success. -/
def Arm.pull (a : Arm) (success : Bool) : Arm :=
  { pulls := a.pulls + 1,
    successes := a.successes + if success then 1 else 0 }

/-- The mutable globals of the simulation loop: `arms`, `allocHistory`,
`simDone`, `simWinner`. -/
structure SimState where
  arms : List Arm
  allocHistory : List (ℕ × List ℚ)
  simDone : Bool
  simWinner : Option ℕ
  deriving Repr

/-- The arm list after one `simStep`: the arm drawn by `selectArm` from the
current allocation is pulled. -/
def armsAfter (mode : SimMode) (st : SimState) (r : ℚ) (outcome : Bool) :
    List Arm :=
  st.arms.set (selectArm (stepAlloc mode st.arms) r)
    ((st.arms.getD (selectArm (stepAlloc mode st.arms) r) default).pull outcome)

/-- The history after one `simStep`: the allocation is appended every
`CHART_SAMPLE` total pulls. -/
def histAfter (mode : SimMode) (st : SimState) (r : ℚ) (outcome : Bool) :
    List (ℕ × List ℚ) :=
  if totalPulls (armsAfter mode st r outcome) % CHART_SAMPLE = 0
  then st.allocHistory
    ++ [(totalPulls (armsAfter mode st r outcome), stepAlloc mode st.arms)]
  else st.allocHistory

/-- `simStep()`: pull the selected arm, record history, and on
`shouldStop()` set `simDone` and capture `simWinner = bestArmIdx()`. -/
noncomputable def simStep (mode : SimMode) (st : SimState) (r : ℚ)
    (outcome : Bool) : SimState :=
  if shouldStop (armsAfter mode st r outcome)
  then { arms := armsAfter mode st r outcome,
         allocHistory := histAfter mode st r outcome,
         simDone := true,
         simWinner := some (bestArmIdx (armsAfter mode st r outcome)) }
  else { arms := armsAfter mode st r outcome,
         allocHistory := histAfter mode st r outcome,
         simDone := st.simDone,
         simWinner := st.simWinner }

/-- `runBatch()`: run `simStep` over the supplied random inputs, skipping
all remaining steps as soon as `simDone` is set or `totalPulls()` reaches
`MAX_STEPS`. -/
noncomputable def runBatch (mode : SimMode) :
    SimState → List (ℚ × Bool) → SimState
  | st, [] => st
  | st, (r, outcome) :: rest =>
    if st.simDone = true ∨ MAX_STEPS ≤ totalPulls st.arms then st
    else runBatch mode (simStep mode st r outcome) rest

/-- `showWinner()`'s winner: `simWinner` when the stopping rule fired,
otherwise (step-cap case) the current best arm. -/
def winnerShown (st : SimState) : ℕ :=
  st.simWinner.getD (bestArmIdx st.arms)

/-- C4: a terminal state (rule fired or cap reached) absorbs the whole
batch, so no further steps execute; when the stopping rule fires during a
step the winner captured is the best arm of the resulting state; and in the
cap case (no captured winner) the winner shown is the current best arm. -/
theorem sim_terminal_spec (mode : SimMode) (st : SimState)
    (inputs : List (ℚ × Bool)) :
    (st.simDone = true ∨ MAX_STEPS ≤ totalPulls st.arms →
      runBatch mode st inputs = st) ∧
    (∀ r outcome, st.simDone = false →
      (simStep mode st r outcome).simDone = true →
      (simStep mode st r outcome).simWinner
        = some (bestArmIdx (simStep mode st r outcome).arms)) ∧
    (st.simWinner = none → winnerShown st = bestArmIdx st.arms) := by
  refine ⟨?_, ?_, ?_⟩
  · intro h
    cases inputs with
    | nil => rfl
    | cons p rest =>
      obtain ⟨r, outcome⟩ := p
      rw [runBatch, if_pos h]
  · intro r outcome h0 h1
    by_cases hstop : shouldStop (armsAfter mode st r outcome) = true
    · rw [simStep, if_pos hstop]
    · rw [simStep, if_neg hstop] at h1
      rw [h0] at h1
      exact absurd h1 (by simp)
  · intro h
    rw [winnerShown, h]
    rfl

/-- C4 witness: a state with `simDone = true` absorbs a one-step batch, and
an uncaptured winner falls back to the best arm. -/
theorem sim_terminal_spec_witness :
    runBatch SimMode.uniform (SimState.mk [Arm.mk 0 0] [] true none)
        [(0, true)] = SimState.mk [Arm.mk 0 0] [] true none ∧
      winnerShown (SimState.mk [Arm.mk 0 0] [] true none)
        = bestArmIdx [Arm.mk 0 0] :=
  ⟨(sim_terminal_spec SimMode.uniform (SimState.mk [Arm.mk 0 0] [] true none)
      [(0, true)]).1 (Or.inl rfl),
   (sim_terminal_spec SimMode.uniform (SimState.mk [Arm.mk 0 0] [] true none)
      [(0, true)]).2.2 rfl⟩

end BanditSim
